import Mathlib

/-!
Verification of `src/fckeditor_uploader.py`.

Texts are modelled as `List Char`.  The callback-argument parser
`parse_onupload_list`, the upload-outcome classification of `upload_file`,
the parameter-table lookup and candidate rewriting of `get_upload_url`,
and the batch loop of `main` are shallowly embedded below.  External
collaborators (HTTP transport, HTML parsing, the filesystem, the clock)
are abstracted as explicit inputs: an upload attempt is summarised by the
HTTP status and body it returns, a page by the list of option values its
document yields, the clock by a function from ticks to timestamp strings.

A Python function that can raise is modelled with `Option`/an explicit
outcome constructor: `none` (or the dedicated constructor) marks the
raised exception.
-/

namespace FCK

/-- The characters of a string literal, the form all concrete inputs take. -/
def chars (s : String) : List Char := s.data

/-- Python `str.strip()` / regex `\s` whitespace, restricted to the ASCII
whitespace characters (the inputs in this development are ASCII; the extra
Unicode whitespace Python also strips plays no role here). -/
def isPySpace (c : Char) : Bool :=
  c = ' ' ∨ c = Char.ofNat 9 ∨ c = Char.ofNat 10 ∨ c = Char.ofNat 13 ∨
    c = Char.ofNat 11 ∨ c = Char.ofNat 12

/-- Python `str.strip()`: drop leading and trailing whitespace. -/
def pyStrip (l : List Char) : List Char :=
  ((l.dropWhile isPySpace).reverse.dropWhile isPySpace).reverse

/-- Value of an ASCII hex-digit byte, `none` for any other byte. -/
def hexVal (b : Nat) : Option Nat :=
  if 48 ≤ b ∧ b ≤ 57 then some (b - 48)
  else if 97 ≤ b ∧ b ≤ 102 then some (b - 87)
  else if 65 ≤ b ∧ b ≤ 70 then some (b - 55)
  else none

/-- Is the byte an ASCII octal digit `0`..`7`? -/
def isOctByte (b : Nat) : Bool := 48 ≤ b ∧ b ≤ 55

/-- One escape sequence of Python's `unicode_escape` codec: given the
bytes after a backslash, the decoded characters together with how many of
those bytes the escape consumed, or `none` when the codec raises
(`UnicodeDecodeError`: trailing backslash, truncated `\\x`/`\\u`/`\\U`,
out-of-range `\\U`).  The recognised escapes are a line continuation (`\\`
before a newline byte), `\\\\`, `\\'`, `\\"`, `\\b`, `\\f`, `\\t`, `\\n`, `\\r`,
`\\v`, `\\a`, one to three octal digits, `\\x` with exactly two hex digits,
`\\u` with exactly four and `\\U` with exactly eight; any other escape keeps
the backslash and the following byte verbatim.  Two modelling notes for
pieces no input of this development exercises: `\\N{name}` escapes are
mapped to an error (the Unicode name database is not modelled; Python
would resolve a well-formed known name), and a code point Lean's `Char`
cannot hold (a lone surrogate from `\\u`) goes through `Char.ofNat`'s
default. -/
def decodeEsc (l : List Nat) : Option (List Char × Nat) :=
  match l with
  | [] => none
  | e :: rest =>
    if e = 10 then some ([], 1)
    else if e = 92 then some ([Char.ofNat 92], 1)
    else if e = 39 then some ([Char.ofNat 39], 1)
    else if e = 34 then some ([Char.ofNat 34], 1)
    else if e = 98 then some ([Char.ofNat 8], 1)
    else if e = 102 then some ([Char.ofNat 12], 1)
    else if e = 116 then some ([Char.ofNat 9], 1)
    else if e = 110 then some ([Char.ofNat 10], 1)
    else if e = 114 then some ([Char.ofNat 13], 1)
    else if e = 118 then some ([Char.ofNat 11], 1)
    else if e = 97 then some ([Char.ofNat 7], 1)
    else if isOctByte e then
      match rest with
      | d2 :: rest2 =>
        if isOctByte d2 then
          match rest2 with
          | d3 :: _ =>
            if isOctByte d3 then
              some ([Char.ofNat ((e - 48) * 64 + (d2 - 48) * 8 + (d3 - 48))], 3)
            else some ([Char.ofNat ((e - 48) * 8 + (d2 - 48))], 2)
          | [] => some ([Char.ofNat ((e - 48) * 8 + (d2 - 48))], 2)
        else some ([Char.ofNat (e - 48)], 1)
      | [] => some ([Char.ofNat (e - 48)], 1)
    else if e = 120 then
      match rest with
      | h1 :: h2 :: _ =>
        match hexVal h1, hexVal h2 with
        | some v1, some v2 => some ([Char.ofNat (v1 * 16 + v2)], 3)
        | _, _ => none
      | _ => none
    else if e = 117 then
      match rest with
      | h1 :: h2 :: h3 :: h4 :: _ =>
        match hexVal h1, hexVal h2, hexVal h3, hexVal h4 with
        | some v1, some v2, some v3, some v4 =>
          some ([Char.ofNat (((v1 * 16 + v2) * 16 + v3) * 16 + v4)], 5)
        | _, _, _, _ => none
      | _ => none
    else if e = 85 then
      match rest with
      | h1 :: h2 :: h3 :: h4 :: h5 :: h6 :: h7 :: h8 :: _ =>
        match hexVal h1, hexVal h2, hexVal h3, hexVal h4,
              hexVal h5, hexVal h6, hexVal h7, hexVal h8 with
        | some v1, some v2, some v3, some v4, some v5, some v6, some v7, some v8 =>
          let v := (((((((v1 * 16 + v2) * 16 + v3) * 16 + v4) * 16 + v5) * 16
                       + v6) * 16 + v7) * 16 + v8)
          if v ≤ 0x10FFFF then some ([Char.ofNat v], 9) else none
        | _, _, _, _, _, _, _, _ => none
      | _ => none
    else if e = 78 then none
    else some ([Char.ofNat 92, Char.ofNat e], 1)

/-- Python's `unicode_escape` codec over a byte sequence: each byte outside
an escape is the corresponding (Latin-1) character; a backslash (byte 92)
starts an escape handled by `decodeEsc`; `none` models the raised
`UnicodeDecodeError`.  The `Nat` argument counts bytes still to skip
because a decoded escape already consumed them. -/
def decodeUEGo : List Nat → Nat → Option (List Char)
  | [], _ => some []
  | _ :: rest, k + 1 => decodeUEGo rest k
  | b :: rest, 0 =>
    if b = 92 then
      match decodeEsc rest with
      | none => none
      | some (cs, k) => (decodeUEGo rest k).map (fun t => cs ++ t)
    else (decodeUEGo rest 0).map (fun t => Char.ofNat b :: t)

/-- Python's `unicode_escape` codec over a byte sequence. -/
def decodeUEBytes (l : List Nat) : Option (List Char) := decodeUEGo l 0

/-- UTF-8 encoding of one character, as byte values. -/
def utf8Bytes (c : Char) : List Nat :=
  let n := c.toNat
  if n < 0x80 then [n]
  else if n < 0x800 then [0xC0 + n / 0x40, 0x80 + n % 0x40]
  else if n < 0x10000 then
    [0xE0 + n / 0x1000, 0x80 + (n / 0x40) % 0x40, 0x80 + n % 0x40]
  else
    [0xF0 + n / 0x40000, 0x80 + (n / 0x1000) % 0x40,
     0x80 + (n / 0x40) % 0x40, 0x80 + n % 0x40]

/-- UTF-8 encoding of a character list. -/
def utf8Encode (s : List Char) : List Nat := s.flatMap utf8Bytes

/-- Python `bytes(s, "utf-8").decode("unicode_escape")`, the decoding the
source applies to the interior of a quoted argument; `none` models the
raised `UnicodeDecodeError`. -/
def pyUnicodeEscape (s : List Char) : Option (List Char) :=
  decodeUEBytes (utf8Encode s)

/-- Python `arg[0] in '"\''` together with `arg[-1] == arg[0]` and
`len(arg) >= 2`: the argument text is wrapped in one matching pair of
quotes. -/
def isWrapped (arg : List Char) : Bool :=
  2 ≤ arg.length ∧ (arg.headD ' ' = '"' ∨ arg.headD ' ' = Char.ofNat 39) ∧
    arg.getLastD ' ' = arg.headD ' '

/-- Python `arg[1:-1]`. -/
def unwrapQuoted (arg : List Char) : List Char := (arg.drop 1).dropLast

/-- The comma-delimited argument flush of `parse_onupload_list` (source
lines 68-76): strip the buffer; a non-empty argument is appended, decoded
when it is quote-wrapped; `none` models a raised `UnicodeDecodeError`. -/
def flushComma (args : List (List Char)) (buf : List Char) :
    Option (List (List Char)) :=
  let arg := pyStrip buf
  if arg = [] then some args
  else if isWrapped arg then
    (pyUnicodeEscape (unwrapQuoted arg)).map (fun v => args ++ [v])
  else some (args ++ [arg])

/-- The end-of-input flush of `parse_onupload_list` (source lines 80-86). -/
def flushFinal (args : List (List Char)) (buf : List Char) :
    Option (List (List Char)) :=
  if buf = [] then some args
  else
    let arg := pyStrip buf
    if isWrapped arg then
      (pyUnicodeEscape (unwrapQuoted arg)).map (fun v => args ++ [v])
    else if arg = [] then some args
    else some (args ++ [arg])

/-- The character scanner of `parse_onupload_list` (source lines 50-86):
explicit state `inStr` (inside a quoted string), `quote` (the opening
quote character, `none` before any string was entered) and `esc` (the
previous character was an unconsumed backslash).  `none` models a raised
`UnicodeDecodeError` from decoding a flushed argument. -/
def scanArgs : List Char → List (List Char) → List Char → Bool →
    Option Char → Bool → Option (List (List Char))
  | [], args, buf, _, _, _ => flushFinal args buf
  | ch :: rest, args, buf, inStr, quote, esc =>
    if inStr then
      if esc then scanArgs rest args (buf ++ [ch]) inStr quote false
      else if ch = Char.ofNat 92 then
        scanArgs rest args (buf ++ [ch]) inStr quote true
      else if some ch = quote then
        scanArgs rest args (buf ++ [ch]) false quote esc
      else scanArgs rest args (buf ++ [ch]) inStr quote esc
    else
      if ch = Char.ofNat 39 ∨ ch = '"' then
        scanArgs rest args (buf ++ [ch]) true (some ch) esc
      else if ch = ',' then
        match flushComma args buf with
        | none => none
        | some args2 => scanArgs rest args2 [] inStr quote esc
      else scanArgs rest args (buf ++ [ch]) inStr quote esc

/-- Case-insensitive match of the pattern against a prefix of the text,
returning the remainder of the text; ASCII case folding (the pattern is
the ASCII literal `OnUploadCompleted`). -/
def ciPrefixStrip : List Char → List Char → Option (List Char)
  | [], l => some l
  | _ :: _, [] => none
  | p :: ps, c :: cs => if c.toLower = p.toLower then ciPrefixStrip ps cs else none

/-- The characters before the first `)`, or `none` when there is none:
the non-greedy capture `(.*?)\)` under `re.S` (a `.` matches newlines). -/
def takeUntilParen : List Char → Option (List Char)
  | [] => none
  | c :: cs => if c = ')' then some [] else (takeUntilParen cs).map (fun t => c :: t)

/-- Try the regex `OnUploadCompleted\s*\((.*?)\)` at the head of the text
and return the capture. -/
def tryMatchAt (l : List Char) : Option (List Char) :=
  match ciPrefixStrip (chars "OnUploadCompleted") l with
  | none => none
  | some r1 =>
    match r1.dropWhile isPySpace with
    | [] => none
    | c :: r3 => if c = '(' then takeUntilParen r3 else none

/-- `re.search(r"OnUploadCompleted\s*\((.*?)\)", text, re.S | re.I)`:
the capture of the leftmost match, `none` when nothing matches. -/
def findCallbackArgs : List Char → Option (List Char)
  | [] => none
  | c :: cs =>
    match tryMatchAt (c :: cs) with
    | some cap => some cap
    | none => findCallbackArgs cs

/-- `parse_onupload_list` (source lines 34-88): no regex match yields the
empty list; otherwise the stripped capture is scanned; `none` models the
`UnicodeDecodeError` the source lets escape. -/
def parse_onupload_list (text : List Char) : Option (List (List Char)) :=
  match findCallbackArgs text with
  | none => some []
  | some interior => scanArgs (pyStrip interior) [] [] false none false

/-- Outcome of one `upload_file` call.  `uploadError` is the
`Exception(f"上传失败: {status},{body}")` the source raises; `indexError`
is the `IndexError` raised by evaluating `parsed[0]` on an empty list;
`decodeError` is a `UnicodeDecodeError` escaping `parse_onupload_list`;
`fileMissing` is the `FileNotFoundError` raised before any request. -/
inductive UploadResult where
  | success (args : List (List Char))
  | uploadError (status : Nat) (body : List Char)
  | indexError
  | decodeError
  | fileMissing
  deriving DecidableEq, Repr

/-- The response classification of `upload_file` (source lines 116-121),
with Python's evaluation order of
`if parsed and parsed[0] == '0' or parsed[0] == '201'` made explicit:
`and` binds tighter than `or`, and an empty `parsed` makes the right
disjunct index into the empty list. -/
def classify_response (status : Nat) (body : List Char) : UploadResult :=
  if status = 200 ∧ body ≠ [] then
    match parse_onupload_list body with
    | none => .decodeError
    | some parsed =>
      match parsed with
      | [] => .indexError
      | p0 :: _ =>
        if p0 = chars "0" ∨ p0 = chars "201" then .success parsed
        else .uploadError status body
  else .uploadError status body

/-- `upload_file` (source lines 91-121), abstracting the transport: the
file-existence check result is the input `fileIsFile`, and the POST's
answer is the inputs `status` and `body`.  The second component counts
the HTTP requests issued. -/
def upload_file_model (fileIsFile : Bool) (status : Nat) (body : List Char) :
    UploadResult × Nat :=
  if fileIsFile then (classify_response status body, 1) else (.fileMissing, 0)

/-- Python `needle in hay` on strings: substring test. -/
def isSubstrOf (needle hay : List Char) : Bool :=
  needle.isPrefixOf hay ||
    match hay with
    | [] => false
    | _ :: t => isSubstrOf needle t

/-- `URL_PARAM_MAP` (source lines 17-31), in its authored order; the
`"param"` field is `none` for the entry whose param is Python `None`. -/
def URL_PARAM_MAP : List (List Char × Option (List Char)) :=
  [ (chars "default/connectors/test.html",
     some (chars "Command=FileUpload&Type=File&CurrentFolder=%2F")),
    (chars "filemanager/connectors/test.html",
     some (chars "Command=FileUpload&Type=File&CurrentFolder=%2F")),
    (chars "connectors/uploadtest.html",
     some (chars "time={timestamp}&Type=File")),
    (chars "upload/test.html", none) ]

/-- The lookup loop of `get_upload_url` (source lines 136-140):
`params` starts as `None` and takes the first matching entry's param,
then the loop breaks. -/
def lookup_param : List (List Char × Option (List Char)) → List Char →
    Option (List Char)
  | [], _ => none
  | (key, value) :: rest, base_url =>
    if isSubstrOf key base_url then value else lookup_param rest base_url

/-- Python `url.split("/")[-1]`: everything after the last `/` (the whole
string when there is no `/`). -/
def afterLastSlash (url : List Char) : List Char :=
  (url.reverse.takeWhile (fun c => c ≠ '/')).reverse

/-- Python `s.replace(old, new)` for a non-empty `old = o :: os`:
non-overlapping occurrences are replaced left to right.  The extra `Nat`
argument counts characters still to skip because they belong to an
occurrence already replaced; on a match at skip 0 the head is consumed and
the remaining `os.length` pattern characters are skipped. -/
def replSkip (o : Char) (os new : List Char) : List Char → Nat → List Char
  | [], _ => []
  | _ :: cs, k + 1 => replSkip o os new cs k
  | c :: cs, 0 =>
    if (o :: os).isPrefixOf (c :: cs) then new ++ replSkip o os new cs os.length
    else c :: replSkip o os new cs 0

/-- Python `s.replace("", new)` inserts `new` before every character and
at the end. -/
def replaceEmpty (new : List Char) : List Char → List Char
  | [] => new
  | c :: cs => new ++ c :: replaceEmpty new cs

/-- Python `s.replace(old, new)`. -/
def pyReplace (s old new : List Char) : List Char :=
  match old with
  | [] => replaceEmpty new s
  | o :: os => replSkip o os new s 0

/-- The candidate rewriting of `get_upload_url` (source lines 148-149):
`base_url.replace(base_url.split("/")[-1], option_value)`. -/
def candidate_base (base_url optValue : List Char) : List Char :=
  pyReplace base_url (afterLastSlash base_url) optValue

/-- The `{timestamp}` placeholder of `URL_PARAM_MAP`. -/
def tsPlaceholder : List Char := chars "{timestamp}"

/-- The option guard of `get_upload_url` (source lines 144-146):
a present, non-empty value containing `upload` or `connectors`. -/
def optionMatches : Option (List Char) → Bool
  | none => false
  | some [] => false
  | some v => isSubstrOf (chars "upload") v || isSubstrOf (chars "connectors") v

/-- The candidate-probing loop of `get_upload_url` (source lines 141-161),
abstracting the collaborators: `opts` is the sequence of `value`
attributes of the document's option elements in the order the HTML
collaborator yields them (`none` for an absent attribute), `clock` gives
the millisecond-timestamp string produced at the i-th evaluation of
`datetime.now()` inside the loop, and `probe` tells whether
`upload_file` on a candidate URL returns without raising.  The loop
threads the reassigned `params` variable and returns the first candidate
whose probe succeeds. -/
def get_upload_url_loop (base_url : List Char) (probe : List Char → Bool)
    (clock : Nat → List Char) :
    List (Option (List Char)) → Option (List Char) → Nat → Option (List Char)
  | [], _, _ => none
  | ov :: rest, params, tick =>
    if optionMatches ov then
      match ov with
      | none => none
      | some v =>
        let cand0 := candidate_base base_url v
        match params with
        | none =>
          if probe cand0 then some cand0
          else get_upload_url_loop base_url probe clock rest none tick
        | some p =>
          let p2 := pyReplace p tsPlaceholder (clock tick)
          let cand := cand0 ++ '?' :: p2
          if probe cand then some cand
          else get_upload_url_loop base_url probe clock rest (some p2) (tick + 1)
    else get_upload_url_loop base_url probe clock rest params tick

/-- The same loop, instrumented to record the candidate URLs actually
probed, in order. -/
def get_upload_url_probes (base_url : List Char) (probe : List Char → Bool)
    (clock : Nat → List Char) :
    List (Option (List Char)) → Option (List Char) → Nat → List (List Char)
  | [], _, _ => []
  | ov :: rest, params, tick =>
    if optionMatches ov then
      match ov with
      | none => []
      | some v =>
        let cand0 := candidate_base base_url v
        match params with
        | none =>
          if probe cand0 then [cand0]
          else cand0 :: get_upload_url_probes base_url probe clock rest none tick
        | some p =>
          let p2 := pyReplace p tsPlaceholder (clock tick)
          let cand := cand0 ++ '?' :: p2
          if probe cand then [cand]
          else cand :: get_upload_url_probes base_url probe clock rest (some p2) (tick + 1)
    else get_upload_url_probes base_url probe clock rest params tick

/-- The candidate URLs the loop would build from the option values, in
document order, independent of any probing. -/
def candidate_list (base_url : List Char) (clock : Nat → List Char) :
    List (Option (List Char)) → Option (List Char) → Nat → List (List Char)
  | [], _, _ => []
  | ov :: rest, params, tick =>
    if optionMatches ov then
      match ov with
      | none => []
      | some v =>
        let cand0 := candidate_base base_url v
        match params with
        | none => cand0 :: candidate_list base_url clock rest none tick
        | some p =>
          let p2 := pyReplace p tsPlaceholder (clock tick)
          (cand0 ++ '?' :: p2) :: candidate_list base_url clock rest (some p2) (tick + 1)
    else candidate_list base_url clock rest params tick

/-- The elements of a list up to and including the first one satisfying
`p` (all of them when none does). -/
def takeThrough (p : α → Bool) : List α → List α
  | [] => []
  | x :: xs => if p x then [x] else x :: takeThrough p xs

/-- The inner loop of the batch phase of `main` (source lines 220-225):
one row per endpoint for a fixed file. -/
def batch_file (attempt : List Char → List Char → UploadResult)
    (f : List Char) : List (List Char) → List (List Char × List Char × UploadResult)
  | [] => []
  | e :: es => (f, e, attempt f e) :: batch_file attempt f es

/-- The batch phase of `main` (source lines 216-227), abstracting the
filesystem and transport: `files` is the list of regular files the
directory enumeration yields, `endpoints` the confirmed endpoints, and
`attempt f e` the recorded outcome of `upload_file(e, f)` (success or the
caught exception).  Every pair is attempted; an exception is caught and
logged, never aborting the loops. -/
def batch_upload (files endpoints : List (List Char))
    (attempt : List Char → List Char → UploadResult) :
    List (List Char × List Char × UploadResult) :=
  match files with
  | [] => []
  | f :: fs => batch_file attempt f endpoints ++ batch_upload fs endpoints attempt

/-! ### Helper lemmas -/

theorem batch_file_eq_map (attempt : List Char → List Char → UploadResult)
    (f : List Char) (es : List (List Char)) :
    batch_file attempt f es = es.map (fun e => (f, e, attempt f e)) := by
  induction es with
  | nil => rfl
  | cons e es ih => simp [batch_file, ih]

theorem batch_upload_eq_flatMap (files endpoints : List (List Char))
    (attempt : List Char → List Char → UploadResult) :
    batch_upload files endpoints attempt =
      files.flatMap (fun f => endpoints.map (fun e => (f, e, attempt f e))) := by
  induction files with
  | nil => rfl
  | cons f fs ih => simp [batch_upload, ih, batch_file_eq_map]

theorem lookup_param_eq_find (table : List (List Char × Option (List Char)))
    (url : List Char) :
    lookup_param table url =
      (table.find? (fun e => isSubstrOf e.1 url)).bind (fun e => e.2) := by
  induction table with
  | nil => rfl
  | cons kv rest ih =>
    obtain ⟨key, value⟩ := kv
    by_cases h : isSubstrOf key url
    · simp [lookup_param, List.find?, h]
    · simp only [lookup_param, List.find?] at *
      simp [h, ih]

/-! ### Claim theorems (part 1) -/

/-- C1: the claim states that with HTTP status 200 and a non-empty body
every non-success outcome — an empty parse result included — is a Failure
carrying the status code and raw body, never an unhandled crash.  The code
violates this: `if parsed and parsed[0] == '0' or parsed[0] == '201'`
parenthesises as `(parsed and parsed[0] == '0') or parsed[0] == '201'`, so
an empty parse result evaluates `parsed[0]` on the empty list and raises
`IndexError`.  This theorem evaluates the embedded classification at the
failing input: an existing sample file, status 200 and body `hello`
(non-empty, no callback invocation, so the parse result is empty). -/
theorem c1_empty_parse_crashes :
    upload_file_model true 200 (chars "hello") = (UploadResult.indexError, 1) ∧
    parse_onupload_list (chars "hello") = some [] := by
  constructor <;> decide

/-- C2 counterexample: the parser is not total.  On
`OnUploadCompleted("\u")` the scanner flushes the quote-wrapped argument
`"\u"` and the source decodes its interior with
`bytes(arg[1:-1], "utf-8").decode("unicode_escape")`, which raises
`UnicodeDecodeError` on the truncated `\u` escape; `none` is this model's
image of that exception. -/
theorem c2_truncated_escape_raises :
    parse_onupload_list (chars "OnUploadCompleted(\"\\u\")") = none := by
  decide

/-- C3 counterexample: the candidate URL is not the base URL with only its
final path segment replaced.  The source uses
`base_url.replace(last_segment, option_value)`, which replaces every
occurrence of the final segment, so for base `http://h/u/u` and option
value `x` the code produces `http://h/x/x`, while the claim requires
`http://h/u/x` (everything before the last `/` unchanged). -/
theorem c3_replace_hits_earlier_parts :
    candidate_base (chars "http://h/u/u") (chars "x") = chars "http://h/x/x" ∧
    candidate_base (chars "http://h/u/u") (chars "x") ≠ chars "http://h/u/x" := by
  constructor <;> decide

/-- C5: on `OnUploadCompleted("0","/x","f.txt","")` the parser returns four
arguments and the fourth is the empty string — an explicit empty quoted
string is kept at its position — while an argument that is empty after
trimming whitespace (second conjunct) is dropped. -/
theorem c5_empty_quoted_arg_kept :
    parse_onupload_list (chars "OnUploadCompleted(\"0\",\"/x\",\"f.txt\",\"\")") =
      some [chars "0", chars "/x", chars "f.txt", ([] : List Char)] ∧
    parse_onupload_list (chars "OnUploadCompleted(a, ,b)") =
      some [chars "a", chars "b"] := by
  constructor <;> decide

/-- C7: the parameter lookup returns the template of the first
`(pattern, template)` pair in table-definition order whose pattern is a
substring of the URL, and no template when no pattern matches (first
conjunct, for every table and URL).  The remaining conjuncts show table
order deciding a URL that two patterns match: both the second pattern
`filemanager/connectors/test.html` and the third `connectors/uploadtest.html`
occur in the URL, the two templates differ, and the lookup returns the
second entry's template. -/
theorem c7_first_match_in_table_order :
    (∀ (table : List (List Char × Option (List Char))) (url : List Char),
      lookup_param table url =
        (table.find? (fun e => isSubstrOf e.1 url)).bind (fun e => e.2)) ∧
    isSubstrOf (chars "filemanager/connectors/test.html")
      (chars "http://h/connectors/uploadtest.html/filemanager/connectors/test.html") = true ∧
    isSubstrOf (chars "connectors/uploadtest.html")
      (chars "http://h/connectors/uploadtest.html/filemanager/connectors/test.html") = true ∧
    lookup_param URL_PARAM_MAP
      (chars "http://h/connectors/uploadtest.html/filemanager/connectors/test.html") =
      some (chars "Command=FileUpload&Type=File&CurrentFolder=%2F") ∧
    some (chars "Command=FileUpload&Type=File&CurrentFolder=%2F") ≠
      some (chars "time={timestamp}&Type=File") := by
  refine ⟨lookup_param_eq_find, ?_, ?_, ?_, ?_⟩ <;> decide

/-- C8: when the file-existence check fails, `upload_file` raises
`FileNotFoundError` and issues no HTTP request: for every response the
transport could have given, the outcome is `fileMissing` and the request
count is zero. -/
theorem c8_missing_file_no_network :
    ∀ (status : Nat) (body : List Char),
      upload_file_model false status body = (UploadResult.fileMissing, 0) := by
  intro status body
  simp [upload_file_model]

/-- C9: the batch phase records one outcome per (file, endpoint) pair —
the run log is exactly the full cross product in loop order, whatever each
attempt's outcome is, so a failing pair never suppresses another pair's
record — and its length is `n * m`. -/
theorem c9_batch_full_cross_product :
    ∀ (files endpoints : List (List Char))
      (attempt : List Char → List Char → UploadResult),
      batch_upload files endpoints attempt =
        files.flatMap (fun f => endpoints.map (fun e => (f, e, attempt f e))) ∧
      (batch_upload files endpoints attempt).length =
        files.length * endpoints.length := by
  intro files endpoints attempt
  refine ⟨batch_upload_eq_flatMap files endpoints attempt, ?_⟩
  rw [batch_upload_eq_flatMap]
  induction files with
  | nil => simp
  | cons f fs ih => simp [ih, Nat.succ_mul, Nat.add_comm]

/-- C6: over any document's option values, discovery returns the first
candidate in document order whose probe succeeds (the loop equals
`find?` over the built candidate list), and the probed candidates are
exactly the candidates up to and including that first success
(`takeThrough`), so nothing after the first success is probed. -/
theorem c6_first_success_short_circuit :
    ∀ (base_url : List Char) (probe : List Char → Bool)
      (clock : Nat → List Char) (opts : List (Option (List Char)))
      (params : Option (List Char)) (tick : Nat),
      get_upload_url_loop base_url probe clock opts params tick =
        (candidate_list base_url clock opts params tick).find? probe ∧
      get_upload_url_probes base_url probe clock opts params tick =
        takeThrough probe (candidate_list base_url clock opts params tick) := by
  intro base_url probe clock opts
  induction opts with
  | nil => intro params tick; constructor <;> rfl
  | cons ov rest ih =>
    intro params tick
    by_cases h : optionMatches ov = true
    · match ov with
      | none => simp [optionMatches] at h
      | some v =>
        match params with
        | none =>
          by_cases hp : probe (candidate_base base_url v) = true
          · simp [get_upload_url_loop, get_upload_url_probes, candidate_list, h,
              hp, List.find?, takeThrough]
          · simp only [get_upload_url_loop, get_upload_url_probes, candidate_list,
              h, if_true, List.find?, takeThrough]
            rw [Bool.not_eq_true] at hp
            simp [hp, ih none tick]
        | some p =>
          by_cases hp : probe (candidate_base base_url v ++ '?' ::
              pyReplace p tsPlaceholder (clock tick)) = true
          · simp [get_upload_url_loop, get_upload_url_probes, candidate_list, h,
              hp, List.find?, takeThrough]
          · simp only [get_upload_url_loop, get_upload_url_probes, candidate_list,
              h, if_true, List.find?, takeThrough]
            rw [Bool.not_eq_true] at hp
            simp [hp, ih (some (pyReplace p tsPlaceholder (clock tick))) (tick + 1)]
    · rw [Bool.not_eq_true] at h
      simp [get_upload_url_loop, get_upload_url_probes, candidate_list, h,
        ih params tick]

/-! ### Replacement at a unique final occurrence -/

theorem replSkip_skip_all (o : Char) (os new : List Char) :
    ∀ l : List Char, replSkip o os new l l.length = [] := by
  intro l
  induction l with
  | nil => rfl
  | cons c cs ih => simpa [replSkip] using ih

theorem replSkip_unique_final (o : Char) (os new : List Char) :
    ∀ t : List Char,
      (∀ i, i < t.length → ¬ (o :: os).isPrefixOf ((t ++ (o :: os)).drop i) = true) →
      replSkip o os new (t ++ (o :: os)) 0 = t ++ new := by
  intro t
  induction t with
  | nil =>
    intro _
    have hpre : (o :: os).isPrefixOf (o :: os) = true := by
      simp [List.isPrefixOf_iff_prefix, List.prefix_refl]
    simp only [List.nil_append, replSkip, hpre, if_true]
    rw [replSkip_skip_all]
    simp
  | cons c t' ih =>
    intro h
    have h0 : ¬ (o :: os).isPrefixOf ((c :: t' ++ (o :: os)).drop 0) = true := by
      have := h 0 (by simp)
      simpa using this
    simp only [List.drop_zero] at h0
    have step : replSkip o os new (c :: (t' ++ (o :: os))) 0 =
        c :: replSkip o os new (t' ++ (o :: os)) 0 := by
      simp only [replSkip]
      rw [if_neg]
      intro hcontra
      exact h0 (by simpa using hcontra)
    simp only [List.cons_append, step]
    rw [ih]
    intro i hi
    have := h (i + 1) (by simpa using Nat.succ_lt_succ hi)
    simpa using this

/-- C3 (amended): the candidate URL is the base URL with every occurrence
of its final path segment replaced by the option value; when the final
segment is non-empty and occurs in the base URL only as its final
suffix, this coincides with the claim — everything before the last `/`
is left unchanged and the final segment becomes the option value. -/
theorem c3_amended_unique_final_segment :
    ∀ (base opt t : List Char),
      t ++ afterLastSlash base = base →
      afterLastSlash base ≠ [] →
      (∀ i, i < t.length →
        ¬ (afterLastSlash base).isPrefixOf (base.drop i) = true) →
      candidate_base base opt = t ++ opt := by
  intro base opt t hsplit hne hocc
  match hseg : afterLastSlash base with
  | [] => exact absurd hseg hne
  | o :: os =>
    have hbase : base = t ++ (o :: os) := by rw [← hsplit, hseg]
    have hocc2 : ∀ i, i < t.length →
        ¬ (o :: os).isPrefixOf ((t ++ (o :: os)).drop i) = true := by
      intro i hi
      have := hocc i hi
      rw [hseg, hbase] at this
      exact this
    calc candidate_base base opt
        = pyReplace base (afterLastSlash base) opt := rfl
      _ = replSkip o os opt (t ++ (o :: os)) 0 := by rw [hseg, hbase]; rfl
      _ = t ++ opt := replSkip_unique_final o os opt t hocc2

/-- C3 witness: applying the amended theorem at a concrete base URL whose
final segment `b` is non-empty and occurs nowhere earlier. -/
theorem c3_amended_witness :
    candidate_base (chars "http://h/a/b") (chars "new.html") =
      chars "http://h/a/" ++ chars "new.html" :=
  c3_amended_unique_final_segment (chars "http://h/a/b") (chars "new.html")
    (chars "http://h/a/") (by decide) (by decide) (by decide)

/-! ### The captured region of the regex search -/

theorem ciPrefixStrip_self_append :
    ∀ (p X : List Char), ciPrefixStrip p (p ++ X) = some X := by
  intro p
  induction p with
  | nil => intro X; rfl
  | cons c cs ih => intro X; simp [ciPrefixStrip, ih]

theorem takeUntilParen_append (s t : List Char) (h : ')' ∉ s) :
    takeUntilParen (s ++ ')' :: t) = some s := by
  induction s with
  | nil => rfl
  | cons c cs ih =>
    have hc : ¬ c = ')' := fun hc => h (hc ▸ List.mem_cons_self c cs)
    have hcs : ')' ∉ cs := fun hm => h (List.mem_cons_of_mem c hm)
    simp [takeUntilParen, hc, ih hcs]

theorem tryMatchAt_callback (s t : List Char) (h : ')' ∉ s) :
    tryMatchAt (chars "OnUploadCompleted(" ++ (s ++ ')' :: t)) = some s := by
  have e1 : chars "OnUploadCompleted(" ++ (s ++ ')' :: t) =
      chars "OnUploadCompleted" ++ ('(' :: (s ++ ')' :: t)) := rfl
  rw [e1]
  simp only [tryMatchAt, ciPrefixStrip_self_append]
  have e2 : List.dropWhile isPySpace ('(' :: (s ++ ')' :: t)) =
      '(' :: (s ++ ')' :: t) := by
    rw [List.dropWhile_cons_of_neg]
    decide
  rw [e2]
  simp [takeUntilParen_append s t h]

theorem findCallbackArgs_callback (s t : List Char) (h : ')' ∉ s) :
    findCallbackArgs (chars "OnUploadCompleted(" ++ (s ++ ')' :: t)) = some s := by
  show (match tryMatchAt (chars "OnUploadCompleted(" ++ (s ++ ')' :: t)) with
        | some cap => some cap
        | none => findCallbackArgs (chars "nUploadCompleted(" ++ (s ++ ')' :: t))) =
      some s
  rw [tryMatchAt_callback s t h]

/-- C10: the parser's result is a function of the characters strictly
between the callback's `(` and the first `)` that follows anywhere: for
every interior `s` free of `)` and every continuation `t`, the result on
`OnUploadCompleted(` ++ `s` ++ `)` ++ `t` is the scan of the stripped
interior alone, so all later text is ignored.  The second conjunct shows a
`)` inside a quoted argument terminating the captured region: the argument
`"a)b"` is truncated to the partial text `"a` and the rest of the call is
discarded. -/
theorem c10_capture_region :
    (∀ (s t : List Char), ')' ∉ s →
      parse_onupload_list (chars "OnUploadCompleted(" ++ (s ++ ')' :: t)) =
        scanArgs (pyStrip s) [] [] false none false) ∧
    parse_onupload_list (chars "OnUploadCompleted(\"a)b\",\"c\")") =
      some [chars "\"a"] := by
  constructor
  · intro s t h
    simp [parse_onupload_list, findCallbackArgs_callback s t h]
  · decide

/-- C10 witness: the capture theorem applied at a concrete interior and a
discarded continuation. -/
theorem c10_capture_region_witness :
    parse_onupload_list
        (chars "OnUploadCompleted(" ++ (chars "'0','x'" ++ ')' :: chars " tail)")) =
      scanArgs (pyStrip (chars "'0','x'")) [] [] false none false :=
  c10_capture_region.1 (chars "'0','x'") (chars " tail)") (by decide)

/-! ### Totality of the scanner on backslash-free input -/

theorem mem_of_mem_pyStrip {a : Char} {l : List Char} (h : a ∈ pyStrip l) :
    a ∈ l := by
  unfold pyStrip at h
  rw [List.mem_reverse] at h
  have h2 : a ∈ (l.dropWhile isPySpace).reverse :=
    (List.dropWhile_sublist isPySpace).mem h
  rw [List.mem_reverse] at h2
  exact (List.dropWhile_sublist isPySpace).mem h2

theorem mem_of_mem_unwrapQuoted {a : Char} {l : List Char}
    (h : a ∈ unwrapQuoted l) : a ∈ l := by
  unfold unwrapQuoted at h
  exact (List.drop_sublist 1 l).mem ((List.dropLast_sublist _).mem h)

theorem utf8Bytes_not_92 {c : Char} (hc : c ≠ Char.ofNat 92) :
    (92 : Nat) ∉ utf8Bytes c := by
  intro hmem
  simp only [utf8Bytes] at hmem
  by_cases h1 : c.toNat < 0x80
  · rw [if_pos h1] at hmem
    rw [List.mem_singleton] at hmem
    apply hc
    have : Char.ofNat c.toNat = Char.ofNat 92 := by rw [← hmem]
    rwa [Char.ofNat_toNat] at this
  · rw [if_neg h1] at hmem
    by_cases h2 : c.toNat < 0x800
    · rw [if_pos h2] at hmem
      simp only [List.mem_cons, List.mem_singleton, List.not_mem_nil, or_false] at hmem
      omega
    · rw [if_neg h2] at hmem
      by_cases h3 : c.toNat < 0x10000
      · rw [if_pos h3] at hmem
        simp only [List.mem_cons, List.not_mem_nil, or_false] at hmem
        omega
      · rw [if_neg h3] at hmem
        simp only [List.mem_cons, List.not_mem_nil, or_false] at hmem
        omega

theorem utf8Encode_not_92 {s : List Char} (h : Char.ofNat 92 ∉ s) :
    (92 : Nat) ∉ utf8Encode s := by
  intro hm
  rw [utf8Encode, List.mem_flatMap] at hm
  obtain ⟨c, hc, hb⟩ := hm
  exact utf8Bytes_not_92 (fun hceq => h (hceq ▸ hc)) hb

theorem decodeUEGo_isSome {l : List Nat} (h : (92 : Nat) ∉ l) :
    (decodeUEGo l 0).isSome = true := by
  induction l with
  | nil => rfl
  | cons b rest ih =>
    have hb : ¬ b = 92 := fun he => h (by rw [he]; exact List.mem_cons_self _ _)
    have hr : (92 : Nat) ∉ rest := fun hm => h (List.mem_cons_of_mem _ hm)
    simp only [decodeUEGo]
    rw [if_neg hb]
    cases hres : decodeUEGo rest 0 with
    | none => rw [hres] at ih; exact absurd (ih hr) (by simp)
    | some v => simp [hres]

theorem pyUnicodeEscape_isSome {s : List Char} (h : Char.ofNat 92 ∉ s) :
    (pyUnicodeEscape s).isSome = true :=
  decodeUEGo_isSome (utf8Encode_not_92 h)

theorem flushComma_isSome (args : List (List Char)) {buf : List Char}
    (h : Char.ofNat 92 ∉ buf) : (flushComma args buf).isSome = true := by
  simp only [flushComma]
  by_cases h1 : pyStrip buf = []
  · simp [h1]
  · rw [if_neg h1]
    by_cases h2 : isWrapped (pyStrip buf) = true
    · rw [if_pos h2]
      have hnb : Char.ofNat 92 ∉ unwrapQuoted (pyStrip buf) :=
        fun hm => h (mem_of_mem_pyStrip (mem_of_mem_unwrapQuoted hm))
      cases hd : pyUnicodeEscape (unwrapQuoted (pyStrip buf)) with
      | none =>
        have := pyUnicodeEscape_isSome hnb
        rw [hd] at this; exact absurd this (by simp)
      | some v => simp [hd]
    · rw [if_neg h2]; simp

theorem flushFinal_isSome (args : List (List Char)) {buf : List Char}
    (h : Char.ofNat 92 ∉ buf) : (flushFinal args buf).isSome = true := by
  simp only [flushFinal]
  by_cases h0 : buf = []
  · simp [h0]
  · rw [if_neg h0]
    by_cases h2 : isWrapped (pyStrip buf) = true
    · rw [if_pos h2]
      have hnb : Char.ofNat 92 ∉ unwrapQuoted (pyStrip buf) :=
        fun hm => h (mem_of_mem_pyStrip (mem_of_mem_unwrapQuoted hm))
      cases hd : pyUnicodeEscape (unwrapQuoted (pyStrip buf)) with
      | none =>
        have := pyUnicodeEscape_isSome hnb
        rw [hd] at this; exact absurd this (by simp)
      | some v => simp [hd]
    · rw [if_neg h2]
      by_cases h3 : pyStrip buf = []
      · simp [h3]
      · simp [h3]

theorem scanArgs_isSome :
    ∀ (input : List Char) (args : List (List Char)) (buf : List Char)
      (inStr : Bool) (quote : Option Char) (esc : Bool),
      Char.ofNat 92 ∉ input → Char.ofNat 92 ∉ buf →
      (scanArgs input args buf inStr quote esc).isSome = true := by
  intro input
  induction input with
  | nil =>
    intro args buf _ _ _ _ hbuf
    exact flushFinal_isSome args hbuf
  | cons ch rest ih =>
    intro args buf inStr quote esc hin hbuf
    have hch : ¬ ch = Char.ofNat 92 :=
      fun he => hin (by rw [← he]; exact List.mem_cons_self _ _)
    have hrest : Char.ofNat 92 ∉ rest := fun hm => hin (List.mem_cons_of_mem _ hm)
    have hbuf2 : Char.ofNat 92 ∉ buf ++ [ch] := by
      intro hm
      rcases List.mem_append.mp hm with hm1 | hm1
      · exact hbuf hm1
      · rw [List.mem_singleton] at hm1
        exact hch hm1.symm
    simp only [scanArgs]
    by_cases h1 : inStr = true
    · rw [if_pos h1]
      by_cases h2 : esc = true
      · rw [if_pos h2]; exact ih args (buf ++ [ch]) inStr quote false hrest hbuf2
      · rw [if_neg h2, if_neg hch]
        by_cases h3 : some ch = quote
        · rw [if_pos h3]; exact ih args (buf ++ [ch]) false quote esc hrest hbuf2
        · rw [if_neg h3]; exact ih args (buf ++ [ch]) inStr quote esc hrest hbuf2
    · rw [if_neg h1]
      by_cases h4 : ch = Char.ofNat 39 ∨ ch = '"'
      · rw [if_pos h4]; exact ih args (buf ++ [ch]) true (some ch) esc hrest hbuf2
      · rw [if_neg h4]
        by_cases h5 : ch = ','
        · rw [if_pos h5]
          cases hf : flushComma args buf with
          | none =>
            have := flushComma_isSome args hbuf
            rw [hf] at this; exact absurd this (by simp)
          | some args2 =>
            exact ih args2 [] inStr quote esc hrest (List.not_mem_nil _)
        · rw [if_neg h5]; exact ih args (buf ++ [ch]) inStr quote esc hrest hbuf2

theorem ciPrefixStrip_mem :
    ∀ {p l r : List Char}, ciPrefixStrip p l = some r → ∀ a, a ∈ r → a ∈ l := by
  intro p
  induction p with
  | nil =>
    intro l r h a ha
    simp only [ciPrefixStrip, Option.some.injEq] at h
    rw [h]; exact ha
  | cons c cs ih =>
    intro l r h a ha
    match l with
    | [] => exact absurd h (by simp [ciPrefixStrip])
    | d :: ds =>
      simp only [ciPrefixStrip] at h
      split at h
      · exact List.mem_cons_of_mem _ (ih h a ha)
      · exact absurd h (by simp)

theorem takeUntilParen_mem :
    ∀ {l cap : List Char}, takeUntilParen l = some cap → ∀ a, a ∈ cap → a ∈ l := by
  intro l
  induction l with
  | nil => intro cap h; exact absurd h (by simp [takeUntilParen])
  | cons c cs ih =>
    intro cap h a ha
    simp only [takeUntilParen] at h
    split at h
    · simp only [Option.some.injEq] at h
      rw [← h] at ha
      exact absurd ha (List.not_mem_nil a)
    · cases ht : takeUntilParen cs with
      | none => rw [ht] at h; exact absurd h (by simp)
      | some w =>
        rw [ht] at h
        simp only [Option.map_some', Option.some.injEq] at h
        rw [← h] at ha
        rcases List.mem_cons.mp ha with rfl | hm
        · exact List.mem_cons_self _ _
        · exact List.mem_cons_of_mem _ (ih ht a hm)

theorem tryMatchAt_mem {l cap : List Char} (h : tryMatchAt l = some cap) :
    ∀ a, a ∈ cap → a ∈ l := by
  intro a ha
  unfold tryMatchAt at h
  cases h1 : ciPrefixStrip (chars "OnUploadCompleted") l with
  | none => rw [h1] at h; exact absurd h (by simp)
  | some r1 =>
    rw [h1] at h
    have h2 : (match List.dropWhile isPySpace r1 with
        | [] => none
        | c :: r3 => if c = '(' then takeUntilParen r3 else none) = some cap := h
    cases hdw : r1.dropWhile isPySpace with
    | nil => rw [hdw] at h2; exact absurd h2 (by simp)
    | cons d r3 =>
      rw [hdw] at h2
      have h3 : (if d = '(' then takeUntilParen r3 else none) = some cap := h2
      by_cases hd : d = '('
      · rw [if_pos hd] at h3
        have ha3 : a ∈ r3 := takeUntilParen_mem h3 a ha
        have hmem : a ∈ r1.dropWhile isPySpace := by
          rw [hdw]; exact List.mem_cons_of_mem _ ha3
        exact ciPrefixStrip_mem h1 a ((List.dropWhile_sublist _).mem hmem)
      · rw [if_neg hd] at h3
        exact absurd h3 (by simp)

theorem findCallbackArgs_mem :
    ∀ {l cap : List Char}, findCallbackArgs l = some cap → ∀ a, a ∈ cap → a ∈ l := by
  intro l
  induction l with
  | nil => intro cap h; exact absurd h (by simp [findCallbackArgs])
  | cons c cs ih =>
    intro cap h a ha
    simp only [findCallbackArgs] at h
    cases ht : tryMatchAt (c :: cs) with
    | some cap2 =>
      rw [ht] at h
      simp only [Option.some.injEq] at h
      exact tryMatchAt_mem ht a (h ▸ ha)
    | none =>
      rw [ht] at h
      exact List.mem_cons_of_mem _ (ih h a ha)

/-- C2 (amended): the parser is total on every input containing no
backslash — in particular the scanner itself never raises, and unbalanced
quotes are handled by continuing in inside-string mode and flushing the
final partial buffer as the last argument (second conjunct: the unbalanced
`OnUploadCompleted("ab, c)` yields the single partial argument `"ab, c`,
its inside-string comma not splitting it).  A quoted argument containing a
malformed backslash escape, however, makes the escape decoding raise, so
totality does not extend to every input. -/
theorem c2_amended_total_without_backslash :
    (∀ text : List Char, Char.ofNat 92 ∉ text →
      (parse_onupload_list text).isSome = true) ∧
    parse_onupload_list (chars "OnUploadCompleted(\"ab, c)") =
      some [chars "\"ab, c"] := by
  constructor
  · intro text h
    unfold parse_onupload_list
    cases hf : findCallbackArgs text with
    | none => rfl
    | some cap =>
      have hstrip : Char.ofNat 92 ∉ pyStrip cap :=
        fun hm => h (findCallbackArgs_mem hf _ (mem_of_mem_pyStrip hm))
      exact scanArgs_isSome (pyStrip cap) [] [] false none false hstrip
        (List.not_mem_nil _)
  · decide

/-- C2 witness: the amended totality theorem applied at a concrete
backslash-free input. -/
theorem c2_amended_witness :
    (parse_onupload_list (chars "OnUploadCompleted('0','a,b')")).isSome = true :=
  c2_amended_total_without_backslash.1 (chars "OnUploadCompleted('0','a,b')")
    (by decide)

/-! ### Quoted arguments on plain ASCII content -/

theorem toNat_ne_92 {c : Char} (h : c ≠ Char.ofNat 92) : c.toNat ≠ 92 :=
  fun he => h (by rw [← Char.ofNat_toNat c, he])

theorem utf8Encode_ascii :
    ∀ (u : List Char), (∀ c ∈ u, c.toNat < 128) →
      utf8Encode u = u.map Char.toNat := by
  intro u
  induction u with
  | nil => intro _; rfl
  | cons c cs ih =>
    intro h
    have hc : c.toNat < 128 := h c (List.mem_cons_self _ _)
    have e : utf8Bytes c = [c.toNat] := by
      simp only [utf8Bytes]
      rw [if_pos hc]
    simp only [utf8Encode, List.flatMap_cons, List.map_cons] at *
    rw [e, ih (fun d hd => h d (List.mem_cons_of_mem _ hd))]
    rfl

theorem decodeUEGo_ascii :
    ∀ (u : List Char), (∀ c ∈ u, c ≠ Char.ofNat 92) →
      decodeUEGo (u.map Char.toNat) 0 = some u := by
  intro u
  induction u with
  | nil => intro _; rfl
  | cons c cs ih =>
    intro h
    have hb : ¬ c.toNat = 92 := toNat_ne_92 (h c (List.mem_cons_self _ _))
    simp only [List.map_cons, decodeUEGo]
    rw [if_neg hb, ih (fun d hd => h d (List.mem_cons_of_mem _ hd))]
    simp [Char.ofNat_toNat]

theorem pyUnicodeEscape_ascii (u : List Char)
    (h : ∀ c ∈ u, c.toNat < 128 ∧ c ≠ Char.ofNat 92) :
    pyUnicodeEscape u = some u := by
  unfold pyUnicodeEscape decodeUEBytes
  rw [utf8Encode_ascii u (fun c hc => (h c hc).1)]
  exact decodeUEGo_ascii u (fun c hc => (h c hc).2)

theorem pyStrip_quoted (u : List Char) :
    pyStrip ('"' :: (u ++ ['"'])) = '"' :: (u ++ ['"']) := by
  have hq : ¬ isPySpace '"' = true := by decide
  unfold pyStrip
  rw [List.dropWhile_cons_of_neg hq]
  have e1 : ('"' :: (u ++ ['"'])).reverse = '"' :: (u.reverse ++ ['"']) := by
    simp
  rw [e1, List.dropWhile_cons_of_neg hq]
  simp

theorem isWrapped_quoted (u : List Char) :
    isWrapped ('"' :: (u ++ ['"'])) = true := by
  simp only [isWrapped, decide_eq_true_eq]
  refine ⟨by simp, Or.inl rfl, ?_⟩
  rw [show ('"' :: (u ++ ['"'])) = ('"' :: u) ++ ['"'] from rfl,
    List.getLastD_concat]
  rfl

theorem unwrapQuoted_quoted (u : List Char) :
    unwrapQuoted ('"' :: (u ++ ['"'])) = u := by
  simp [unwrapQuoted]

theorem scanArgs_inString :
    ∀ (u rest : List Char) (args : List (List Char)) (buf : List Char),
      (∀ c ∈ u, c ≠ Char.ofNat 92 ∧ c ≠ '"') →
      scanArgs (u ++ rest) args buf true (some '"') false =
        scanArgs rest args (buf ++ u) true (some '"') false := by
  intro u
  induction u with
  | nil => intro rest args buf _; simp
  | cons c cs ih =>
    intro rest args buf h
    have hc := h c (List.mem_cons_self _ _)
    have hq : ¬ some c = some '"' := fun he => hc.2 (Option.some.inj he)
    have step : scanArgs (c :: (cs ++ rest)) args buf true (some '"') false =
        scanArgs (cs ++ rest) args (buf ++ [c]) true (some '"') false := by
      simp only [scanArgs, eq_self_iff_true, if_true]
      rw [if_neg Bool.false_ne_true, if_neg hc.1, if_neg hq]
    rw [List.cons_append, step, ih rest args (buf ++ [c])
      (fun d hd => h d (List.mem_cons_of_mem _ hd))]
    simp

/-- C4: on the well-formed callback body
`OnUploadCompleted(a, b, "c,d", "e\"f")` the parser returns exactly
`["a", "b", "c,d", "e\"f"]` — the comma inside the quoted third argument
does not split it, and the backslash escape in the fourth is decoded
(first conjunct).  The second conjunct generalises the comma handling:
for every plain ASCII interior `u` (no backslash, no double quote, no
closing parenthesis — commas allowed), the body `OnUploadCompleted("u")`
parses to the single argument `u`, commas and all. -/
theorem c4_quoted_commas_escapes :
    parse_onupload_list (chars "OnUploadCompleted(a, b, \"c,d\", \"e\\\"f\")") =
      some [chars "a", chars "b", chars "c,d", chars "e\"f"] ∧
    (∀ u : List Char,
      (∀ c ∈ u, c.toNat < 128 ∧ c ≠ Char.ofNat 92 ∧ c ≠ '"' ∧ c ≠ ')') →
      parse_onupload_list (chars "OnUploadCompleted(\"" ++ (u ++ chars "\")")) =
        some [u]) := by
  constructor
  · decide
  · intro u h
    have e1 : chars "OnUploadCompleted(\"" = chars "OnUploadCompleted(" ++ ['"'] := rfl
    have e2 : chars "\")" = ['"', ')'] := rfl
    have harr : chars "OnUploadCompleted(\"" ++ (u ++ chars "\")") =
        chars "OnUploadCompleted(" ++ (('"' :: (u ++ ['"'])) ++ ')' :: []) := by
      rw [e1, e2]
      simp
    rw [harr]
    have hs : ')' ∉ ('"' :: (u ++ ['"'])) := by
      intro hm
      rcases List.mem_cons.mp hm with he | hm2
      · exact absurd he (by decide)
      · rcases List.mem_append.mp hm2 with h3 | h3
        · exact (h _ h3).2.2.2 rfl
        · rw [List.mem_singleton] at h3; exact absurd h3 (by decide)
    have hcap := findCallbackArgs_callback ('"' :: (u ++ ['"'])) [] hs
    simp only [parse_onupload_list, hcap]
    rw [pyStrip_quoted]
    have step1 : scanArgs ('"' :: (u ++ ['"'])) [] [] false none false =
        scanArgs (u ++ ['"']) [] ['"'] true (some '"') false := by
      simp [scanArgs]
    rw [step1, scanArgs_inString u ['"'] [] ['"']
      (fun c hc => ⟨(h c hc).2.1, (h c hc).2.2.1⟩)]
    have step2 : scanArgs ['"'] [] (['"'] ++ u) true (some '"') false =
        flushFinal [] ((['"'] ++ u) ++ ['"']) := by
      simp [scanArgs]
    rw [step2]
    have e3 : (['"'] ++ u) ++ ['"'] = '"' :: (u ++ ['"']) := by simp
    rw [e3]
    simp only [flushFinal]
    rw [if_neg (by simp), pyStrip_quoted]
    rw [if_pos (isWrapped_quoted u), unwrapQuoted_quoted]
    rw [pyUnicodeEscape_ascii u (fun c hc => ⟨(h c hc).1, (h c hc).2.1⟩)]
    rfl

/-- C4 witness: the general conjunct applied at the interior `x,y`, whose
comma is preserved inside the quotes. -/
theorem c4_witness :
    parse_onupload_list
        (chars "OnUploadCompleted(\"" ++ (chars "x,y" ++ chars "\")")) =
      some [chars "x,y"] :=
  c4_quoted_commas_escapes.2 (chars "x,y") (by decide)

end FCK
